import Mathlib

/-!
Shallow embedding of the Belenios-style election core (Rust sources under
src/): the prime-order group layer, ElGamal encryption with leaked
randomness, the discrete-log and set-membership Fiat-Shamir proofs of
src/primitives/zkp.rs, the UUID digit encoding of src/datatypes/uuids.rs,
ballot verification of src/datatypes/ballot.rs, and the Voting Server
state transitions of src/participants/voting_server.rs.

Group model: the code works over the Ristretto255 group, a cyclic group of
prime order L with a fixed generator g.  Such a group is isomorphic (as a
ZMod L module) to (ZMod L, +) with g corresponding to 1, so we embed both
scalars and points as ZMod L, scalar multiplication as ring
multiplication, the group generator as 1 and the identity as 0.  Every
universally quantified group identity proved in this model transfers to
the real group along the isomorphism, and every disequality used in a
counterexample only involves elements of the form n * g with n small, which
are distinct in the real group because g has order L > n.

SHA-256 based hashing (utils::hash_to_scalar) and the canonical 32-byte
point and scalar encodings are cryptographic black boxes for every claim
below; they are passed as explicit function parameters (H, pb, sb), so the
theorems quantify over all of their possible behaviours.
-/

/-- The order of the Ristretto255 group: 2^252 + 27742317777372353535851937790883648493. -/
def belOrder : Nat := 7237005577332262213973186563042994240857116359379907606001950938285454250989

/-- Elements of the scalar field of the group (curve25519_dalek scalar::Scalar). -/
abbrev Scalar : Type := ZMod belOrder

/-- Group elements (curve25519_dalek RistrettoPoint), embedded by their discrete
logarithm with respect to the base point. -/
abbrev Point : Type := ZMod belOrder

/-- RISTRETTO_BASEPOINT_POINT, the fixed generator, is 1 in the discrete-log model. -/
def basePoint : Point := 1

/-- Point::identity, the additive identity of the group. -/
def pointIdentity : Point := 0

/-- Byte strings (Vec<u8> in the source); each entry is meant as one byte value. -/
abbrev Bytes : Type := List Nat

/-- ProtocolError from src/lib.rs. -/
inductive ProtocolError : Type where
  | IncorrectLenError : ProtocolError
  | DifferentMultisetError : ProtocolError
  | TrusteePKProofFailedError : List Nat → ProtocolError
  | DisagreementOverLError : ProtocolError
  | CredentialNotFoundError : ProtocolError
  | CredentialUsedTwiceError : ProtocolError
  | BallotVerificationError : ProtocolError
deriving DecidableEq, Repr

/-- UUID::from<u128> of src/datatypes/uuids.rs: repeatedly divides by 58,
pushing the base-58 digit values (little-endian) while the value is nonzero. -/
def uuidFrom (val : Nat) : List Nat :=
  if h : val = 0 then [] else (val % 58) :: uuidFrom (val / 58)
termination_by val
decreasing_by
  exact Nat.div_lt_self (Nat.pos_of_ne_zero h) (by decide)

/-- UUID::gen of src/datatypes/uuids.rs: fills a 16-byte buffer from the RNG,
reads it big-endian as a u128 value, and applies UUID::from. The RNG output is
modeled as the resulting value, which ranges over all naturals below 2^128. -/
def uuidGen (rngVal : Nat) : List Nat := uuidFrom (rngVal % 2 ^ 128)

/-- Ciphertext of src/primitives/pki.rs: a pair (alpha, beta) of points. -/
structure Ciphertext : Type where
  alpha : Point
  beta : Point
deriving DecidableEq, Repr

/-- EncryptionKey::enc_leak_randomness of src/primitives/pki.rs with the sampled
randomness r made an explicit argument: alpha = r * g, beta = y * r + m * g,
and the pair is returned together with r. -/
def encLeakRandomness (y : Point) (m : Scalar) (r : Scalar) : Ciphertext × Scalar :=
  (⟨r * basePoint, y * r + m * basePoint⟩, r)

/-- Componentwise sum of ciphertexts, as computed in the alpha_sum/beta_sum
loops of src/datatypes/ballot.rs. -/
def ctxtAdd (c1 c2 : Ciphertext) : Ciphertext :=
  ⟨c1.alpha + c2.alpha, c1.beta + c2.beta⟩

/-! ## The discrete-log Sigma protocol of src/primitives/zkp.rs (module DLog)

The generic NIZK wrapper (impl<T: SigmaProtocol> NIZK for T) assembles
prove from commitment / challenge / response, and verify recomputes the
challenge from the commitment stored in the proof.  The hash function H
(utils::hash_to_scalar) and the 32-byte point encoding pb
(RistrettoPoint compress) are parameters. -/

/-- The ASCII bytes of the DLog DOMAIN_SEP string "dlog" of src/primitives/zkp.rs. -/
def dlogTag : Bytes := [100, 108, 111, 103]

/-- DLog commitment: a nonce k gives the commitment A = k * g and prover state k. -/
def dlogCommitment (k : Scalar) : Point × Scalar :=
  (k * basePoint, k)

/-- The byte string hashed by DLog::challenge: DOMAIN_SEP bytes, then the
compressed instance point, then the compressed commitment point. -/
def dlogChallengeData (pb : Point → Bytes) (x com : Point) : Bytes :=
  dlogTag ++ pb x ++ pb com

/-- DLog::challenge: hash_to_scalar applied to dlogChallengeData. -/
def dlogChallenge (H : Bytes → Scalar) (pb : Point → Bytes) (x com : Point) : Scalar :=
  H (dlogChallengeData pb x com)

/-- DLog::response: from witness w, prover state k and challenge c, the
response is k + w * c. -/
def dlogResponse (w k c : Scalar) : Scalar := k + w * c

/-- DLog::result: the verifier accepts when com = s * g + x * (-c). -/
def dlogResult (x com : Point) (c s : Scalar) : Bool :=
  decide (com = s * basePoint + x * (-c))

/-- NIZK::prove specialised to DLog: the proof is (commitment, response),
with the challenge recomputed by Fiat-Shamir inside. -/
def dlogProve (H : Bytes → Scalar) (pb : Point → Bytes) (x : Point) (w k : Scalar) :
    Point × Scalar :=
  let ck := dlogCommitment k
  let c := dlogChallenge H pb x ck.1
  (ck.1, dlogResponse w ck.2 c)

/-- NIZK::verify specialised to DLog: recompute the challenge from the stored
commitment and check the verification equation (the response self-comparison
of the generic wrapper is kept verbatim). -/
def dlogVerify (H : Bytes → Scalar) (pb : Point → Bytes) (x : Point) (p : Point × Scalar) :
    Bool :=
  decide (p.2 = p.2) && dlogResult x p.1 (dlogChallenge H pb x p.1) p.2

/-! ## The set-membership Sigma protocol of src/primitives/zkp.rs (module SetMem) -/

/-- The ASCII bytes of the SetMem DOMAIN_SEP string "setmem". -/
def setmemTag : Bytes := [115, 101, 116, 109, 101, 109]

/-- SetMemInstance of src/primitives/zkp.rs: an encryption public key h, a
ciphertext, and the public finite set of scalars (the [Scalar; N] array is
modeled as a list). -/
structure SetMemInstance : Type where
  h : Point
  ctxt : Ciphertext
  FinSet : List Scalar
deriving DecidableEq, Repr

/-- The byte string hashed by SetMem::challenge: DOMAIN_SEP bytes, then the
compressed key h, the compressed ciphertext components alpha and beta, the
byte encodings of all finite-set scalars in order, then the compressed
commitment pairs (A_j, B_j) in order.  pb is the point encoding and sb the
scalar encoding. -/
def setMemChallengeData (pb : Point → Bytes) (sb : Scalar → Bytes)
    (x : SetMemInstance) (com : List (Point × Point)) : Bytes :=
  setmemTag ++ pb x.h ++ pb x.ctxt.alpha ++ pb x.ctxt.beta
    ++ (x.FinSet.map sb).flatten
    ++ (com.map (fun ab => pb ab.1 ++ pb ab.2)).flatten

/-- SetMem::challenge: hash_to_scalar applied to setMemChallengeData. -/
def setMemChallenge (H : Bytes → Scalar) (pb : Point → Bytes) (sb : Scalar → Bytes)
    (x : SetMemInstance) (com : List (Point × Point)) : Scalar :=
  H (setMemChallengeData pb sb x com)

/-! ## Ballots, questions, elections (src/datatypes) -/

/-- Question of src/datatypes/questions.rs; min and max are u128 values. -/
structure Question : Type where
  question : String
  answers : List String
  blank : Bool
  min : Nat
  max : Nat
deriving DecidableEq, Repr

/-- Proof of src/primitives/zkp.rs as used by ballots: a (challenge, response)
scalar pair. -/
structure ZkProof : Type where
  challenge : Scalar
  response : Scalar
deriving DecidableEq, Repr

/-- Answer of src/datatypes/ballot.rs. -/
structure Answer : Type where
  choices : List Ciphertext
  individual_proofs : List (List ZkProof)
  overall_proof : List ZkProof
  blank_proof : Option Unit
deriving DecidableEq, Repr

/-- Ballot of src/datatypes/ballot.rs.  The election UUID is its list of
base-58 digit values (the Vec<u8> held by the UUID type). -/
structure Ballot : Type where
  election_uuid : List Nat
  election_hash : Bytes
  credential : Point
  answers : List Answer
deriving DecidableEq, Repr

/-- Election of src/datatypes/election.rs. -/
structure Election : Type where
  version : Nat
  description : String
  name : String
  group : String
  public_key : Point
  questions : List Question
  uuid : List Nat
  administrator : String
  credential_authority : String
deriving DecidableEq, Repr

/-- The loop body of Ballot::verify of src/datatypes/ballot.rs, from loop
index i on.  Answer::verify calls the IntervalMembership proof system, which
is declared in the sources but whose definition is not among them, so answer
verification is the explicit parameter av; quantifying over av covers the
actual verifier.  The Rust expression self.answers[i].verify(..., &questions[i])
evaluates the index questions[i] first, and that index panics when i is out of
range of the question list: the panic is modeled by the value none. -/
def ballotVerifyFrom (av : Answer → Question → Bool) (b : Ballot) (questions : List Question)
    (i : Nat) : Option Bool :=
  if h : i < b.answers.length then
    match questions[i]? with
    | none => none
    | some q =>
        if av b.answers[i] q then ballotVerifyFrom av b questions (i + 1) else some false
  else some true
termination_by b.answers.length - i

/-- Ballot::verify of src/datatypes/ballot.rs: run the loop from index 0. -/
def ballotVerify (av : Answer → Question → Bool) (b : Ballot) (questions : List Question) :
    Option Bool :=
  ballotVerifyFrom av b questions 0

/-! ## The Voting Server state machine (src/participants/voting_server.rs) -/

/-- VotingServer E3 state: the voter weights from the E1 message and the
generated UUID. -/
structure E3State : Type where
  voters : List Nat
  uuid : List Nat
deriving DecidableEq, Repr

/-- VotingServer E8 state: the UUID and the public list L of
(credential public key, weight) pairs. -/
structure E8State : Type where
  uuid : List Nat
  L : List (Point × Nat)
deriving DecidableEq, Repr

/-- VotingServer E9 state: E8 plus the aggregated trustee public key. -/
structure E9State : Type where
  uuid : List Nat
  L : List (Point × Nat)
  trustee_pk : Point
deriving DecidableEq, Repr

/-- VotingServer V4 state: the published election, the list L, and the
accepted ballots with their weights. -/
structure V4State : Type where
  election : Election
  L : List (Point × Nat)
  accepted_ballots : List (Ballot × Nat)
deriving DecidableEq, Repr

/-- VotingServer<E3>::process_message on the E7 message carrying L: sort the
local weights and the weights unzipped from L (sort_unstable is modeled by
mergeSort, which produces the same sorted list), compare, and move to E8
storing L either way. -/
def processE7 (s : E3State) (L : List (Point × Nat)) :
    E8State × Except ProtocolError Unit :=
  let local_weights := s.voters.mergeSort
  let remote_weights := (L.unzip).2.mergeSort
  let check : Except ProtocolError Unit :=
    if local_weights = remote_weights then .ok () else .error .DifferentMultisetError
  (⟨s.uuid, L⟩, check)

/-- VotingServer<E8>::process_message on the E9M trustee-keys message.  Each
trustee key is a pair of the public-key point and its discrete-log proof; the
proof type and the DLog verifier (whose ProofSystem impl is declared in the
sources but defined outside them) are the parameters pf and dverify.  The
loop over indices records failing indices in order and adds the public keys
of the passing ones to the running aggregate, which starts at the identity. -/
def processE9 {pf : Type} (dverify : Point → pf → Bool) (s : E8State)
    (trustee_keys : List (Point × pf)) : E9State × Except ProtocolError Unit :=
  let z := trustee_keys.enum.foldl
    (fun acc ik =>
      if dverify ik.2.1 ik.2.2 then (acc.1, acc.2 + ik.2.1) else (acc.1 ++ [ik.1], acc.2))
    ([], pointIdentity)
  let check : Except ProtocolError Unit :=
    if 0 < z.1.length then .error (.TrusteePKProofFailedError z.1) else .ok ()
  (⟨s.uuid, s.L, z.2⟩, check)

/-- The credential-lookup loop of VotingServer<V4>::process_message: scan L,
recording whether the credential was seen and the weight of the latest
matching entry (starting from the default weight 1). -/
def findWeight (L : List (Point × Nat)) (cred : Point) : Bool × Nat :=
  L.foldl (fun acc pw => if pw.1 = cred then (true, pw.2) else acc) (false, 1)

/-- VotingServer<V4>::process_message on a V3 ballot message.  Ballot
verification (Ballot::verify with the election public key and questions) is
the parameter bv, for the same reason as in ballotVerifyFrom; the checks and
the state update follow the source order: credential present in L, credential
not among accepted ballots, ballot verifies, then append (ballot, weight). -/
def processV3 (bv : Ballot → Point → List Question → Bool) (s : V4State) (vote : Ballot) :
    V4State × Except ProtocolError Unit :=
  let cred := vote.credential
  let fw := findWeight s.L cred
  if fw.1 = false then
    (s, .error .CredentialNotFoundError)
  else if s.accepted_ballots.foldl (fun found bw => if cred = bw.1.credential then true else found)
      false then
    (s, .error .CredentialUsedTwiceError)
  else if bv vote s.election.public_key s.election.questions = false then
    (s, .error .BallotVerificationError)
  else
    (⟨s.election, s.L, s.accepted_ballots ++ [(vote, fw.2)]⟩, .ok ())

/-! ## Helper lemmas -/

instance : NeZero belOrder := ⟨by norm_num [belOrder]⟩

/-- The scalar field has characteristic greater than two, so 2 is invertible-free
nonzero: used to separate k + w * c from k - w * c. -/
theorem two_ne_zero_scalar : (2 : Scalar) ≠ 0 := by
  intro h2
  have hd : belOrder ∣ 2 :=
    (ZMod.natCast_zmod_eq_zero_iff_dvd 2 belOrder).mp (by exact_mod_cast h2)
  have hle := Nat.le_of_dvd (by norm_num) hd
  norm_num [belOrder] at hle

/-- Two lists of naturals have equal mergeSort results exactly when they are
permutations of each other: sorting is the multiset check of the source. -/
theorem mergeSort_eq_iff_perm (l1 l2 : List Nat) :
    l1.mergeSort = l2.mergeSort ↔ l1.Perm l2 := by
  constructor
  · intro h
    exact (l1.mergeSort_perm _).symm.trans (h ▸ l2.mergeSort_perm _)
  · intro h
    exact List.eq_of_perm_of_sorted
      ((l1.mergeSort_perm _).trans (h.trans (l2.mergeSort_perm _).symm))
      (List.sorted_mergeSort' _) (List.sorted_mergeSort' _)

/-! ## C4: discrete-log NIZK completeness -/

/-- Claim C4: DL NIZK completeness.  For every scalar w, every nonce k of the
prover, every hash function H and every point encoding pb, verifying the
proof produced on the instance w * g with witness w succeeds. -/
theorem dlog_nizk_completeness (H : Bytes → Scalar) (pb : Point → Bytes) (w k : Scalar) :
    dlogVerify H pb (w * basePoint) (dlogProve H pb (w * basePoint) w k) = true := by
  simp only [dlogVerify, dlogProve, dlogCommitment, dlogResponse, dlogResult, basePoint]
  rw [Bool.and_eq_true, decide_eq_true_iff, decide_eq_true_iff]
  exact ⟨trivial, by ring⟩

/-! ## C5: the DLog Fiat-Shamir transcript -/

/-- Claim C5 counterexample: the DLog challenge transcript does not begin with
the ASCII tag "pok" = [112, 111, 107], and the response is not k - w * c.
With the point encoding that returns no bytes, the transcript of the instance
0 and commitment 0 is exactly the tag bytes, which differ from "pok"; and at
w = 1, k = 0, c = 1 the response is 1 while k - w * c = -1, and 1 = -1 is
impossible in a field of characteristic belOrder > 2. -/
theorem dlog_transcript_claim_false :
    dlogChallengeData (fun _ => []) 0 0 ≠ [112, 111, 107] ++ ([] : Bytes) ++ ([] : Bytes)
      ∧ dlogResponse 1 0 1 ≠ (0 : Scalar) - 1 * 1 := by
  constructor
  · decide
  · simp only [dlogResponse]
    intro h
    apply two_ne_zero_scalar
    linear_combination h

/-- Claim C5 (amended): the Fiat-Shamir challenge of the DLog proof equals
HashToScalar of the ASCII domain tag "dlog" = [100, 108, 111, 103] concatenated
(without separator) with the encoding of the instance point P and the encoding
of the commitment A, and the prover's response is s = k + w * c, for every
instance, witness, nonce and challenge. -/
theorem dlog_transcript_amended (H : Bytes → Scalar) (pb : Point → Bytes)
    (x com : Point) (w k c : Scalar) :
    dlogChallenge H pb x com = H ([100, 108, 111, 103] ++ pb x ++ pb com)
      ∧ dlogResponse w k c = k + w * c :=
  ⟨rfl, rfl⟩

/-! ## C6: the SetMem Fiat-Shamir transcript -/

/-- Claim C6 counterexample: the finite-set membership challenge transcript
cannot be parsed as the ASCII tag "prove" = [112, 114, 111, 118, 101] followed
by a context prefix S and anything else.  With point and scalar encodings that
return no bytes, the transcript of a concrete instance is exactly the tag
"setmem" = [115, ...], whose first byte differs from that of "prove"; in
particular the SetMem instance carries no context prefix S at all. -/
theorem setmem_transcript_claim_false :
    ¬ ∃ S rest : Bytes,
      setMemChallengeData (fun _ => []) (fun _ => []) ⟨0, ⟨0, 0⟩, []⟩ [] =
        [112, 114, 111, 118, 101] ++ S ++ rest := by
  rintro ⟨S, rest, h⟩
  simp [setMemChallengeData, setmemTag] at h

/-- Claim C6 (amended): for every instance and commitment list, the SetMem
challenge equals HashToScalar of the ASCII domain tag "setmem" =
[115, 101, 116, 109, 101, 109], then the encoding of the public key h, the
encodings of alpha and beta, the encodings of all finite-set scalars in set
order, then the encodings of all commitment pairs (A_j, B_j) in set order; no
context prefix S exists in the instance and none is bound into the hash. -/
theorem setmem_transcript_amended (H : Bytes → Scalar) (pb : Point → Bytes)
    (sb : Scalar → Bytes) (x : SetMemInstance) (com : List (Point × Point)) :
    setMemChallenge H pb sb x com =
      H ([115, 101, 116, 109, 101, 109] ++ pb x.h ++ pb x.ctxt.alpha ++ pb x.ctxt.beta
        ++ (x.FinSet.map sb).flatten
        ++ (com.map (fun ab => pb ab.1 ++ pb ab.2)).flatten) :=
  rfl

/-! ## C7: ElGamal encryption shape and homomorphism -/

/-- Claim C7: encryption of m under y with randomness r yields the ciphertext
(r * g, r * y + m * g) and returns r alongside it, and the componentwise sum
of encryptions of m1 and m2 with randomness r1 and r2 is the encryption of
m1 + m2 with randomness r1 + r2. -/
theorem elgamal_shape_and_homomorphism (y : Point) (m m1 m2 r r1 r2 : Scalar) :
    ((encLeakRandomness y m r).1.alpha = r * basePoint
      ∧ (encLeakRandomness y m r).1.beta = r * y + m * basePoint
      ∧ (encLeakRandomness y m r).2 = r)
    ∧ ctxtAdd (encLeakRandomness y m1 r1).1 (encLeakRandomness y m2 r2).1 =
        (encLeakRandomness y (m1 + m2) (r1 + r2)).1 := by
  refine ⟨⟨rfl, by simp only [encLeakRandomness]; ring, rfl⟩, ?_⟩
  simp only [encLeakRandomness, ctxtAdd, Ciphertext.mk.injEq]
  constructor <;> ring

/-! ## C9: UUID length -/

/-- Claim C9 fails on the code: the all-zero 16-byte RNG output reads as the
u128 value 0, for which the digit-emitting loop of UUID::from runs zero times,
so the resulting UUID holds no base-58 characters at all, far fewer than the
required 14. -/
theorem uuid_gen_zero_too_short :
    uuidGen 0 = [] ∧ (uuidGen 0).length < 14 := by
  rw [uuidGen]
  norm_num
  rw [uuidFrom]
  norm_num

/-! ## C10: Ballot::verify indexes questions without a length check -/

/-- From any start index, the verification loop yields a defined result when
the answers list is no longer than the question list. -/
theorem ballotVerifyFrom_isSome (av : Answer → Question → Bool) (b : Ballot)
    (qs : List Question) (hlen : b.answers.length ≤ qs.length) :
    ∀ i, (ballotVerifyFrom av b qs i).isSome = true := by
  have key : ∀ n i, b.answers.length - i ≤ n → (ballotVerifyFrom av b qs i).isSome = true := by
    intro n
    induction n with
    | zero =>
      intro i h
      rw [ballotVerifyFrom]
      have hni : ¬ i < b.answers.length := by omega
      simp [hni]
    | succ n ih =>
      intro i h
      rw [ballotVerifyFrom]
      by_cases hi : i < b.answers.length
      · have hq : i < qs.length := lt_of_lt_of_le hi hlen
        rw [List.getElem?_eq_getElem hq]
        simp only [hi, dif_pos]
        by_cases hav : av b.answers[i] qs[i] = true
        · rw [if_pos hav]
          exact ih (i + 1) (by omega)
        · rw [if_neg hav]
          rfl
      · simp [hi]
  intro i
  exact key (b.answers.length - i) i le_rfl

/-- When every answer check passes, a start index within the answers list but
at or beyond the end of the question list makes the loop hit the out-of-range
question lookup. -/
theorem ballotVerifyFrom_none (b : Ballot) (qs : List Question) :
    ∀ i, i ≤ qs.length → qs.length < b.answers.length →
      ballotVerifyFrom (fun _ _ => true) b qs i = none := by
  have key : ∀ n i, qs.length - i ≤ n → i ≤ qs.length → qs.length < b.answers.length →
      ballotVerifyFrom (fun _ _ => true) b qs i = none := by
    intro n
    induction n with
    | zero =>
      intro i h hle hlt
      rw [ballotVerifyFrom]
      have hi : i < b.answers.length := by omega
      simp only [hi, dif_pos]
      have hq : qs[i]? = none := by
        rw [List.getElem?_eq_none]
        omega
      rw [hq]
    | succ n ih =>
      intro i h hle hlt
      by_cases hiq : i = qs.length
      · rw [ballotVerifyFrom]
        have hi : i < b.answers.length := by omega
        simp only [hi, dif_pos]
        have hq : qs[i]? = none := by
          rw [List.getElem?_eq_none]
          omega
        rw [hq]
      · have hiq2 : i < qs.length := by omega
        rw [ballotVerifyFrom]
        have hi : i < b.answers.length := by omega
        simp only [hi, dif_pos]
        rw [List.getElem?_eq_getElem hiq2]
        simp only [if_pos]
        exact ih (i + 1) (by omega) (by omega) hlt
  intro i hle hlt
  exact key (qs.length - i) i le_rfl hle hlt

/-- Claim C10: Ballot::verify never compares the number of answers with the
number of questions.  When the answers list is no longer than the question
list the out-of-bounds lookup is unreachable and the result is defined; a
ballot with no answers verifies as true under every answer checker, including
the everywhere-false one, so no check is performed; and a ballot with more
answers than questions drives the loop into the undefined question lookup
(modeled as none) whenever the in-range answer checks pass. -/
theorem ballot_verify_indexing :
    (∀ (av : Answer → Question → Bool) (b : Ballot) (qs : List Question),
        b.answers.length ≤ qs.length → (ballotVerify av b qs).isSome = true)
    ∧ (∀ (av : Answer → Question → Bool) (b : Ballot) (qs : List Question),
        b.answers = [] → ballotVerify av b qs = some true)
    ∧ (∀ (b : Ballot) (qs : List Question),
        qs.length < b.answers.length → ballotVerify (fun _ _ => true) b qs = none) := by
  refine ⟨?_, ?_, ?_⟩
  · intro av b qs hlen
    exact ballotVerifyFrom_isSome av b qs hlen 0
  · intro av b qs hb
    rw [ballotVerify, ballotVerifyFrom]
    simp [hb]
  · intro b qs hlt
    exact ballotVerifyFrom_none b qs 0 (by omega) hlt

/-- A sample question for concrete evaluations. -/
def sampleQuestion : Question := ⟨"q", ["a", "b"], false, 0, 1⟩

/-- A sample answer with no choices and no proofs. -/
def sampleAnswer : Answer := ⟨[], [], [], none⟩

/-- A sample one-answer ballot. -/
def sampleBallot1 : Ballot := ⟨[], [], 0, [sampleAnswer]⟩

/-- A sample answerless ballot. -/
def sampleBallotE : Ballot := ⟨[], [], 0, []⟩

/-- Witness for C10 at concrete inputs: a one-answer ballot against one
question is defined, an answerless ballot verifies even under the rejecting
checker, and a one-answer ballot against no questions is undefined. -/
theorem ballot_verify_indexing_witness :
    (sampleBallot1.answers.length ≤ [sampleQuestion].length
      ∧ (ballotVerify (fun _ _ => false) sampleBallot1 [sampleQuestion]).isSome = true)
    ∧ (sampleBallotE.answers = ([] : List Answer)
      ∧ ballotVerify (fun _ _ => false) sampleBallotE [sampleQuestion] = some true)
    ∧ (List.length ([] : List Question) < sampleBallot1.answers.length
      ∧ ballotVerify (fun _ _ => true) sampleBallot1 [] = none) :=
  ⟨⟨by decide, ballot_verify_indexing.1 _ _ _ (by decide)⟩,
   ⟨rfl, ballot_verify_indexing.2.1 _ _ _ rfl⟩,
   ⟨by decide, ballot_verify_indexing.2.2 _ _ (by decide)⟩⟩

/-! ## C2: the multiset-of-weights check at E7 -/

/-- Claim C2: processing the E7 message succeeds exactly when the multiset of
weights from the E1 specification equals the multiset of weights occurring as
second components of L, fails with DifferentMultisetError exactly otherwise,
and in both cases the server advances to the E8 state holding the UUID and L. -/
theorem multiset_check_E7 (s : E3State) (L : List (Point × Nat)) :
    ((processE7 s L).2 = .ok () ↔
        (↑s.voters : Multiset Nat) = ↑(L.map Prod.snd))
    ∧ ((processE7 s L).2 = .error .DifferentMultisetError ↔
        ¬ (↑s.voters : Multiset Nat) = ↑(L.map Prod.snd))
    ∧ (processE7 s L).1 = ⟨s.uuid, L⟩ := by
  have hperm : s.voters.mergeSort = ((L.unzip).2).mergeSort ↔
      (↑s.voters : Multiset Nat) = ↑(L.map Prod.snd) := by
    rw [List.unzip_snd, mergeSort_eq_iff_perm, Multiset.coe_eq_coe]
  refine ⟨?_, ?_, rfl⟩
  · simp only [processE7]
    by_cases h : s.voters.mergeSort = ((L.unzip).2).mergeSort
    · rw [if_pos h]
      exact ⟨fun _ => hperm.mp h, fun _ => rfl⟩
    · rw [if_neg h]
      exact ⟨fun hc => (by cases hc), fun hc => absurd (hperm.mpr hc) h⟩
  · simp only [processE7]
    by_cases h : s.voters.mergeSort = ((L.unzip).2).mergeSort
    · rw [if_pos h]
      exact ⟨fun hc => (by cases hc), fun hc => absurd (hperm.mp h) hc⟩
    · rw [if_neg h]
      exact ⟨fun _ hc => h (hperm.mpr hc), fun _ => rfl⟩

/-! ## C3: trustee key aggregation at E9 -/

/-- Indices in an enumeration from n are at least n. -/
theorem le_fst_of_mem_enumFrom {α : Type} :
    ∀ (ks : List α) (n : Nat), ∀ x ∈ List.enumFrom n ks, n ≤ x.1 := by
  intro ks
  induction ks with
  | nil => intro n x hx; simp [List.enumFrom] at hx
  | cons k ks ih =>
    intro n x hx
    rw [List.enumFrom, List.mem_cons] at hx
    rcases hx with hx | hx
    · simp [hx]
    · have := ih (n + 1) x hx
      omega

/-- The indices of an enumeration are strictly increasing. -/
theorem pairwise_fst_lt_enumFrom {α : Type} :
    ∀ (ks : List α) (n : Nat), List.Pairwise (fun a b => a.1 < b.1) (List.enumFrom n ks) := by
  intro ks
  induction ks with
  | nil => intro n; simp [List.enumFrom]
  | cons k ks ih =>
    intro n
    rw [List.enumFrom]
    refine List.Pairwise.cons ?_ (ih (n + 1))
    intro x hx
    have := le_fst_of_mem_enumFrom ks (n + 1) x hx
    simp only
    omega

/-- The E9 loop of the Voting Server, unrolled: starting from any
accumulator, it appends the indices of the failing keys in order and adds the
points of the passing keys. -/
theorem e9_foldl {pf : Type} (dverify : Point → pf → Bool) :
    ∀ (ks : List (Point × pf)) (n : Nat) (aL : List Nat) (aP : Point),
      (List.enumFrom n ks).foldl
        (fun acc ik =>
          if dverify ik.2.1 ik.2.2 then (acc.1, acc.2 + ik.2.1) else (acc.1 ++ [ik.1], acc.2))
        (aL, aP)
      = (aL ++ ((List.enumFrom n ks).filter (fun ik => ! dverify ik.2.1 ik.2.2)).map Prod.fst,
         aP + ((ks.filter (fun k => dverify k.1 k.2)).map Prod.fst).sum) := by
  intro ks
  induction ks with
  | nil => intro n aL aP; simp [List.enumFrom]
  | cons k ks ih =>
    intro n aL aP
    rw [List.enumFrom]
    by_cases hd : dverify k.1 k.2 = true
    · rw [List.foldl_cons]
      simp only [hd, if_pos]
      rw [ih]
      rw [List.filter_cons, List.filter_cons]
      simp [hd, add_assoc]
    · rw [List.foldl_cons]
      rw [if_neg (by simp [hd])]
      rw [ih]
      rw [List.filter_cons, List.filter_cons]
      simp [hd]

/-- The E9 transition in closed form: the new state keeps uuid and L, stores
the sum of the passing keys, and the check reports the failing indices. -/
theorem processE9_eq {pf : Type} (dverify : Point → pf → Bool) (s : E8State)
    (keys : List (Point × pf)) :
    processE9 dverify s keys =
      (⟨s.uuid, s.L, ((keys.filter (fun k => dverify k.1 k.2)).map Prod.fst).sum⟩,
        if 0 < ((keys.enum.filter (fun ik => ! dverify ik.2.1 ik.2.2)).map Prod.fst).length
        then .error (.TrusteePKProofFailedError
          ((keys.enum.filter (fun ik => ! dverify ik.2.1 ik.2.2)).map Prod.fst))
        else .ok ()) := by
  have hz := e9_foldl dverify keys 0 [] pointIdentity
  simp only [pointIdentity, zero_add, List.nil_append] at hz
  simp only [processE9, List.enum, pointIdentity]
  rw [hz]

/-- Membership in the failing-index list says exactly that the key at that
index fails verification. -/
theorem mem_cheaters_iff {pf : Type} (dverify : Point → pf → Bool)
    (keys : List (Point × pf)) (i : Nat) :
    i ∈ ((keys.enum.filter (fun ik => ! dverify ik.2.1 ik.2.2)).map Prod.fst) ↔
      ∃ k, keys[i]? = some k ∧ dverify k.1 k.2 = false := by
  simp only [List.mem_map, List.mem_filter]
  constructor
  · rintro ⟨ik, ⟨hmem, hdv⟩, hfst⟩
    refine ⟨ik.2, ?_, by simpa using hdv⟩
    have hik : (ik.1, ik.2) ∈ keys.enum := by simpa using hmem
    rw [List.mk_mem_enum_iff_getElem?] at hik
    rwa [hfst] at hik
  · rintro ⟨k, hget, hdv⟩
    refine ⟨(i, k), ⟨?_, by simpa using hdv⟩, rfl⟩
    rw [List.mk_mem_enum_iff_getElem?]
    exact hget

/-- All keys pass verification exactly when the failing-index list is empty. -/
theorem cheaters_nil_iff {pf : Type} (dverify : Point → pf → Bool)
    (keys : List (Point × pf)) :
    ((keys.enum.filter (fun ik => ! dverify ik.2.1 ik.2.2)).map Prod.fst) = [] ↔
      ∀ k ∈ keys, dverify k.1 k.2 = true := by
  rw [List.eq_nil_iff_forall_not_mem]
  constructor
  · intro h k hk
    rcases (List.mem_iff_getElem? ).mp hk with ⟨i, hget⟩
    by_contra hdv
    exact h i ((mem_cheaters_iff dverify keys i).mpr
      ⟨k, hget, by simpa using hdv⟩)
  · intro h i hi
    rcases (mem_cheaters_iff dverify keys i).mp hi with ⟨k, hget, hdv⟩
    have hk : k ∈ keys := List.getElem?_mem hget
    rw [h k hk] at hdv
    cases hdv

/-- The failing-index list is strictly increasing. -/
theorem cheaters_sorted {pf : Type} (dverify : Point → pf → Bool)
    (keys : List (Point × pf)) :
    List.Sorted (· < ·)
      ((keys.enum.filter (fun ik => ! dverify ik.2.1 ik.2.2)).map Prod.fst) := by
  rw [List.Sorted, List.pairwise_map]
  exact (pairwise_fst_lt_enumFrom keys 0).filter _

/-- Claim C3: after the E9 message, the stored aggregate public key is the sum
of exactly the trustee keys whose proofs verify; the output is Ok exactly when
every proof verifies, any reported error is TrusteePKProofFailedError whose
index list is strictly increasing and holds exactly the failing indices, and
some error is reported whenever some proof fails. -/
theorem trustee_aggregation_E9 {pf : Type} (dverify : Point → pf → Bool) (s : E8State)
    (keys : List (Point × pf)) :
    ((processE9 dverify s keys).1.trustee_pk
        = ((keys.filter (fun k => dverify k.1 k.2)).map Prod.fst).sum)
    ∧ ((processE9 dverify s keys).2 = .ok () ↔ ∀ k ∈ keys, dverify k.1 k.2 = true)
    ∧ (∀ c, (processE9 dverify s keys).2 = .error (.TrusteePKProofFailedError c) →
        List.Sorted (· < ·) c
          ∧ ∀ i, i ∈ c ↔ ∃ k, keys[i]? = some k ∧ dverify k.1 k.2 = false)
    ∧ ((¬ ∀ k ∈ keys, dverify k.1 k.2 = true) →
        ∃ c, (processE9 dverify s keys).2 = .error (.TrusteePKProofFailedError c)) := by
  rw [processE9_eq]
  by_cases hl :
      0 < ((keys.enum.filter (fun ik => ! dverify ik.2.1 ik.2.2)).map Prod.fst).length
  · rw [if_pos hl]
    have hne : ¬ ((keys.enum.filter (fun ik => ! dverify ik.2.1 ik.2.2)).map Prod.fst) = [] := by
      intro h
      rw [h] at hl
      simp at hl
    refine ⟨rfl, ?_, ?_, ?_⟩
    · constructor
      · intro h
        cases h
      · intro h
        exact absurd ((cheaters_nil_iff dverify keys).mpr h) hne
    · intro c hc
      have : ((keys.enum.filter (fun ik => ! dverify ik.2.1 ik.2.2)).map Prod.fst) = c := by
        injection hc with h1
        injection h1
      subst this
      exact ⟨cheaters_sorted dverify keys, fun i => mem_cheaters_iff dverify keys i⟩
    · intro _
      exact ⟨_, rfl⟩
  · rw [if_neg hl]
    have hnil : ((keys.enum.filter (fun ik => ! dverify ik.2.1 ik.2.2)).map Prod.fst) = [] := by
      rcases List.eq_nil_or_concat ((keys.enum.filter
        (fun ik => ! dverify ik.2.1 ik.2.2)).map Prod.fst) with h | ⟨l2, b, h⟩
      · exact h
      · rw [h] at hl
        simp at hl
    refine ⟨rfl, ?_, ?_, ?_⟩
    · exact ⟨fun _ => (cheaters_nil_iff dverify keys).mp hnil, fun _ => rfl⟩
    · intro c hc
      cases hc
    · intro h
      exact absurd ((cheaters_nil_iff dverify keys).mp hnil) h

/-- A sample E8 state with no voters. -/
def sampleE8 : E8State := ⟨[], []⟩

/-- Two sample trustee keys: public-key points 1 * g and 2 * g with trivial proofs. -/
def sampleKeys : List (Point × Unit) := [(1, ()), (2, ())]

/-- A sample DLog verifier accepting exactly the key 1 * g. -/
def sampleDv : Point → Unit → Bool := fun p _ => decide (p = 1)

/-- Witness for C3 at concrete inputs: with two trustees of which the second
fails verification, processing reports exactly the failing index 1, sorted,
and the failing-index characterization holds there. -/
theorem trustee_aggregation_E9_witness :
    (processE9 sampleDv sampleE8 sampleKeys).2 =
        .error (.TrusteePKProofFailedError [1])
    ∧ (List.Sorted (· < ·) [1]
        ∧ ∀ i, i ∈ [1] ↔ ∃ k, sampleKeys[i]? = some k ∧ sampleDv k.1 k.2 = false) :=
  ⟨rfl, (trustee_aggregation_E9 sampleDv sampleE8 sampleKeys).2.2.1 [1] rfl⟩

/-! ## C1 and C8: ballot processing at V4 -/

/-- The credential scan reports not-found exactly when it started not-found
and no entry of L carries the credential. -/
theorem findWeight_foldl_false_iff (cred : Point) :
    ∀ (L : List (Point × Nat)) (a : Bool × Nat),
      (L.foldl (fun acc pw => if pw.1 = cred then (true, pw.2) else acc) a).1 = false ↔
        (a.1 = false ∧ ∀ w, (cred, w) ∉ L) := by
  intro L
  induction L with
  | nil => intro a; simp
  | cons pw L ih =>
    intro a
    rw [List.foldl_cons]
    by_cases h : pw.1 = cred
    · rw [if_pos h, ih]
      simp only [List.mem_cons]
      constructor
      · rintro ⟨hfalse, _⟩
        cases hfalse
      · rintro ⟨_, hnot⟩
        exact absurd (Or.inl (by rw [← h])) (hnot pw.2)
    · rw [if_neg h, ih]
      constructor
      · rintro ⟨ha, hnot⟩
        refine ⟨ha, fun w hw => ?_⟩
        rw [List.mem_cons] at hw
        rcases hw with hw | hw
        · exact h (by rw [← hw])
        · exact hnot w hw
      · rintro ⟨ha, hnot⟩
        exact ⟨ha, fun w hw => hnot w (List.mem_cons_of_mem _ hw)⟩

/-- When the credential scan reports found, the weight it pairs with the
credential occurs with it in L, unless the scan never moved off its start. -/
theorem findWeight_foldl_mem (cred : Point) :
    ∀ (L : List (Point × Nat)) (a : Bool × Nat),
      (cred, (L.foldl (fun acc pw => if pw.1 = cred then (true, pw.2) else acc) a).2) ∈ L
        ∨ L.foldl (fun acc pw => if pw.1 = cred then (true, pw.2) else acc) a = a := by
  intro L
  induction L with
  | nil => intro a; exact Or.inr rfl
  | cons pw L ih =>
    intro a
    rw [List.foldl_cons]
    by_cases h : pw.1 = cred
    · rw [if_pos h]
      rcases ih (true, pw.2) with hm | he
      · exact Or.inl (List.mem_cons_of_mem _ hm)
      · rw [he]
        refine Or.inl ?_
        rw [show ((cred, pw.2) : Point × Nat) = pw from by rw [← h]]
        exact List.mem_cons_self pw L
    · rw [if_neg h]
      rcases ih a with hm | he
      · exact Or.inl (List.mem_cons_of_mem _ hm)
      · exact Or.inr he

/-- A credential is a first component of L exactly when it occurs in L with
some weight. -/
theorem mem_map_fst_iff (L : List (Point × Nat)) (cred : Point) :
    cred ∈ L.map Prod.fst ↔ ∃ w, (cred, w) ∈ L := by
  rw [List.mem_map]
  constructor
  · rintro ⟨⟨x1, x2⟩, hx, hfst⟩
    exact ⟨x2, by rwa [show cred = x1 from hfst.symm]⟩
  · rintro ⟨w, hw⟩
    exact ⟨(cred, w), hw, rfl⟩

/-- findWeight finds the credential exactly when it is a first component of L. -/
theorem findWeight_found_iff (L : List (Point × Nat)) (cred : Point) :
    (findWeight L cred).1 = true ↔ cred ∈ L.map Prod.fst := by
  rw [mem_map_fst_iff]
  rw [show ((findWeight L cred).1 = true) ↔ ¬ ((findWeight L cred).1 = false) from by
    cases hfw : (findWeight L cred).1 <;> simp]
  rw [findWeight, findWeight_foldl_false_iff]
  constructor
  · intro h
    by_contra hn
    push_neg at hn
    exact h ⟨rfl, hn⟩
  · rintro ⟨w, hw⟩ ⟨_, hnot⟩
    exact hnot w hw

/-- When found, the weight reported by findWeight occurs with the credential in L. -/
theorem findWeight_found_mem (L : List (Point × Nat)) (cred : Point)
    (h : (findWeight L cred).1 = true) :
    (cred, (findWeight L cred).2) ∈ L := by
  rcases findWeight_foldl_mem cred L (false, 1) with hm | he
  · exact hm
  · rw [findWeight] at h
    rw [he] at h
    cases h

/-- Under distinct first components, findWeight reports exactly the weight
paired with the credential. -/
theorem findWeight_eq_weight (L : List (Point × Nat)) (cred : Point) (w : Nat)
    (hnd : (L.map Prod.fst).Nodup) (hw : (cred, w) ∈ L) :
    findWeight L cred = (true, w) := by
  have hfound : (findWeight L cred).1 = true :=
    (findWeight_found_iff L cred).mpr ((mem_map_fst_iff L cred).mpr ⟨w, hw⟩)
  have hmem := findWeight_found_mem L cred hfound
  have heq := List.inj_on_of_nodup_map hnd hmem hw rfl
  have hsnd : (findWeight L cred).2 = w := congrArg Prod.snd heq
  calc findWeight L cred = ((findWeight L cred).1, (findWeight L cred).2) := rfl
    _ = (true, w) := by rw [hfound, hsnd]

/-- The duplicate-credential scan returns true exactly when it started true or
some accepted ballot carries the credential. -/
theorem dup_foldl_iff (cred : Point) :
    ∀ (l : List (Ballot × Nat)) (a : Bool),
      (l.foldl (fun found bw => if cred = bw.1.credential then true else found) a) = true ↔
        (a = true ∨ ∃ bw ∈ l, cred = bw.1.credential) := by
  intro l
  induction l with
  | nil => intro a; simp
  | cons bw l ih =>
    intro a
    rw [List.foldl_cons]
    by_cases h : cred = bw.1.credential
    · rw [if_pos h, ih]
      simp [h]
    · rw [if_neg h, ih]
      simp only [List.mem_cons]
      constructor
      · rintro (ha | ⟨x, hx, hcx⟩)
        · exact Or.inl ha
        · exact Or.inr ⟨x, Or.inr hx, hcx⟩
      · rintro (ha | ⟨x, hx | hx, hcx⟩)
        · exact Or.inl ha
        · rw [hx] at hcx
          exact absurd hcx h
        · exact Or.inr ⟨x, hx, hcx⟩

/-- Ballot processing when the credential is not in L. -/
theorem processV3_not_found (bv : Ballot → Point → List Question → Bool) (s : V4State)
    (vote : Ballot) (h : (findWeight s.L vote.credential).1 = false) :
    processV3 bv s vote = (s, .error .CredentialNotFoundError) := by
  simp only [processV3]
  rw [if_pos h]

/-- Ballot processing when the credential was already used. -/
theorem processV3_dup (bv : Ballot → Point → List Question → Bool) (s : V4State)
    (vote : Ballot) (h1 : ¬ (findWeight s.L vote.credential).1 = false)
    (h2 : s.accepted_ballots.foldl
      (fun found bw => if vote.credential = bw.1.credential then true else found) false = true) :
    processV3 bv s vote = (s, .error .CredentialUsedTwiceError) := by
  simp only [processV3]
  rw [if_neg h1, if_pos h2]

/-- Ballot processing when ballot verification fails. -/
theorem processV3_badproof (bv : Ballot → Point → List Question → Bool) (s : V4State)
    (vote : Ballot) (h1 : ¬ (findWeight s.L vote.credential).1 = false)
    (h2 : ¬ s.accepted_ballots.foldl
      (fun found bw => if vote.credential = bw.1.credential then true else found) false = true)
    (h3 : bv vote s.election.public_key s.election.questions = false) :
    processV3 bv s vote = (s, .error .BallotVerificationError) := by
  simp only [processV3]
  rw [if_neg h1, if_neg h2, if_pos h3]

/-- Ballot processing when every check passes. -/
theorem processV3_accept (bv : Ballot → Point → List Question → Bool) (s : V4State)
    (vote : Ballot) (h1 : ¬ (findWeight s.L vote.credential).1 = false)
    (h2 : ¬ s.accepted_ballots.foldl
      (fun found bw => if vote.credential = bw.1.credential then true else found) false = true)
    (h3 : ¬ bv vote s.election.public_key s.election.questions = false) :
    processV3 bv s vote =
      (⟨s.election, s.L,
        s.accepted_ballots ++ [(vote, (findWeight s.L vote.credential).2)]⟩, .ok ()) := by
  simp only [processV3]
  rw [if_neg h1, if_neg h2, if_neg h3]

/-- Claim C1: for a ballot submitted in the voting state, with every
credential appearing at most once in L: the result is CredentialNotFoundError
exactly when the ballot's credential is not among the first components of L;
otherwise it is CredentialUsedTwiceError exactly when a previously accepted
ballot carries the same credential; otherwise it is BallotVerificationError
exactly when ballot verification fails; and otherwise it is Ok and the pair
(ballot, w) is appended to accepted_ballots, where w is the weight paired
with the credential in L. -/
theorem ballot_acceptance_checks (bv : Ballot → Point → List Question → Bool)
    (s : V4State) (vote : Ballot) (hnd : (s.L.map Prod.fst).Nodup) :
    ((processV3 bv s vote).2 = .error .CredentialNotFoundError ↔
        vote.credential ∉ s.L.map Prod.fst)
    ∧ (vote.credential ∈ s.L.map Prod.fst →
        ((processV3 bv s vote).2 = .error .CredentialUsedTwiceError ↔
          ∃ bw ∈ s.accepted_ballots, bw.1.credential = vote.credential))
    ∧ (vote.credential ∈ s.L.map Prod.fst →
        (∀ bw ∈ s.accepted_ballots, bw.1.credential ≠ vote.credential) →
        ((processV3 bv s vote).2 = .error .BallotVerificationError ↔
          bv vote s.election.public_key s.election.questions = false))
    ∧ (∀ w, (vote.credential, w) ∈ s.L →
        (∀ bw ∈ s.accepted_ballots, bw.1.credential ≠ vote.credential) →
        bv vote s.election.public_key s.election.questions = true →
        ((processV3 bv s vote).2 = .ok ()
          ∧ (processV3 bv s vote).1.accepted_ballots =
              s.accepted_ballots ++ [(vote, w)])) := by
  by_cases h1 : (findWeight s.L vote.credential).1 = false
  · have hres := processV3_not_found bv s vote h1
    have hnotmem : vote.credential ∉ s.L.map Prod.fst := by
      intro hmem
      rw [← findWeight_found_iff] at hmem
      rw [hmem] at h1
      cases h1
    refine ⟨?_, ?_, ?_, ?_⟩
    · rw [hres]
      exact ⟨fun _ => hnotmem, fun _ => rfl⟩
    · intro hmem
      exact absurd hmem hnotmem
    · intro hmem
      exact absurd hmem hnotmem
    · intro w hw
      exact absurd ((mem_map_fst_iff s.L vote.credential).mpr ⟨w, hw⟩) hnotmem
  · have hmem : vote.credential ∈ s.L.map Prod.fst := by
      rw [← findWeight_found_iff]
      cases hfw : (findWeight s.L vote.credential).1
      · exact absurd hfw h1
      · rfl
    by_cases h2 : s.accepted_ballots.foldl
        (fun found bw => if vote.credential = bw.1.credential then true else found) false = true
    · have hres := processV3_dup bv s vote h1 h2
      have hdup : ∃ bw ∈ s.accepted_ballots, bw.1.credential = vote.credential := by
        rcases (dup_foldl_iff vote.credential s.accepted_ballots false).mp h2 with
          ha | ⟨bw, hbw, hc⟩
        · cases ha
        · exact ⟨bw, hbw, hc.symm⟩
      refine ⟨?_, ?_, ?_, ?_⟩
      · rw [hres]
        exact ⟨fun hc => (by simp at hc), fun hn => absurd hmem hn⟩
      · intro _
        rw [hres]
        exact ⟨fun _ => hdup, fun _ => rfl⟩
      · intro _ hno
        rcases hdup with ⟨bw, hbw, hc⟩
        exact absurd hc (hno bw hbw)
      · intro w hw hno hbv
        rcases hdup with ⟨bw, hbw, hc⟩
        exact absurd hc (hno bw hbw)
    · have hnodup2 : ∀ bw ∈ s.accepted_ballots, bw.1.credential ≠ vote.credential := by
        intro bw hbw hc
        exact h2 ((dup_foldl_iff vote.credential s.accepted_ballots false).mpr
          (Or.inr ⟨bw, hbw, hc.symm⟩))
      by_cases h3 : bv vote s.election.public_key s.election.questions = false
      · have hres := processV3_badproof bv s vote h1 h2 h3
        refine ⟨?_, ?_, ?_, ?_⟩
        · rw [hres]
          exact ⟨fun hc => (by simp at hc), fun hn => absurd hmem hn⟩
        · intro _
          rw [hres]
          refine ⟨fun hc => (by simp at hc), fun hd => ?_⟩
          rcases hd with ⟨bw, hbw, hc⟩
          exact absurd hc (hnodup2 bw hbw)
        · intro _ _
          rw [hres]
          exact ⟨fun _ => h3, fun _ => rfl⟩
        · intro w hw hno hbv
          rw [hbv] at h3
          cases h3
      · have hres := processV3_accept bv s vote h1 h2 h3
        have hbv : bv vote s.election.public_key s.election.questions = true := by
          cases hb : bv vote s.election.public_key s.election.questions
          · exact absurd hb h3
          · rfl
        refine ⟨?_, ?_, ?_, ?_⟩
        · rw [hres]
          exact ⟨fun hc => (by simp at hc), fun hn => absurd hmem hn⟩
        · intro _
          rw [hres]
          refine ⟨fun hc => (by simp at hc), fun hd => ?_⟩
          rcases hd with ⟨bw, hbw, hc⟩
          exact absurd hc (hnodup2 bw hbw)
        · intro _ _
          rw [hres]
          refine ⟨fun hc => (by simp at hc), fun hf => ?_⟩
          rw [hf] at hbv
          cases hbv
        · intro w hw hno _
          rw [hres]
          refine ⟨rfl, ?_⟩
          have hfw := findWeight_eq_weight s.L vote.credential w hnd hw
          rw [hfw]

/-- Claim C8: processing a ballot message never changes the stored election or
the list L; on any error the accepted-ballot list is unchanged, and on Ok it
is the previous list with exactly the pair (ballot, w) appended, where w is a
weight paired with the ballot's credential in L. -/
theorem ballot_processing_frame (bv : Ballot → Point → List Question → Bool)
    (s : V4State) (vote : Ballot) :
    ((processV3 bv s vote).1.election = s.election)
    ∧ ((processV3 bv s vote).1.L = s.L)
    ∧ (∀ e, (processV3 bv s vote).2 = .error e →
        (processV3 bv s vote).1.accepted_ballots = s.accepted_ballots)
    ∧ ((processV3 bv s vote).2 = .ok () →
        ∃ w, (vote.credential, w) ∈ s.L
          ∧ (processV3 bv s vote).1.accepted_ballots =
              s.accepted_ballots ++ [(vote, w)]) := by
  by_cases h1 : (findWeight s.L vote.credential).1 = false
  · rw [processV3_not_found bv s vote h1]
    exact ⟨rfl, rfl, fun _ _ => rfl, fun hc => (by simp at hc)⟩
  · by_cases h2 : s.accepted_ballots.foldl
        (fun found bw => if vote.credential = bw.1.credential then true else found) false = true
    · rw [processV3_dup bv s vote h1 h2]
      exact ⟨rfl, rfl, fun _ _ => rfl, fun hc => (by simp at hc)⟩
    · by_cases h3 : bv vote s.election.public_key s.election.questions = false
      · rw [processV3_badproof bv s vote h1 h2 h3]
        exact ⟨rfl, rfl, fun _ _ => rfl, fun hc => (by simp at hc)⟩
      · rw [processV3_accept bv s vote h1 h2 h3]
        refine ⟨rfl, rfl, fun e he => (by simp at he), fun _ => ?_⟩
        refine ⟨(findWeight s.L vote.credential).2, ?_, rfl⟩
        apply findWeight_found_mem
        cases hfw : (findWeight s.L vote.credential).1
        · exact absurd hfw h1
        · rfl

/-- A sample election over one question with public key 0 * g. -/
def sampleElection : Election := ⟨1, "d", "n", "g", 0, [sampleQuestion], [], "adm", "ca"⟩

/-- A sample V4 state: one credential 5 * g of weight 3 in L, no accepted ballots. -/
def sampleV4 : V4State := ⟨sampleElection, [(5, 3)], []⟩

/-- A sample ballot verifier accepting everything. -/
def sampleBv : Ballot → Point → List Question → Bool := fun _ _ _ => true

/-- A sample answerless ballot carrying the enrolled credential 5 * g. -/
def sampleVote : Ballot := ⟨[], [], 5, []⟩

/-- Witness for C1 at concrete inputs, discharging the distinctness of the
credentials of L by evaluation. -/
theorem ballot_acceptance_checks_witness :
    ((processV3 sampleBv sampleV4 sampleVote).2 = .error .CredentialNotFoundError ↔
        sampleVote.credential ∉ sampleV4.L.map Prod.fst)
    ∧ (sampleVote.credential ∈ sampleV4.L.map Prod.fst →
        ((processV3 sampleBv sampleV4 sampleVote).2 = .error .CredentialUsedTwiceError ↔
          ∃ bw ∈ sampleV4.accepted_ballots, bw.1.credential = sampleVote.credential))
    ∧ (sampleVote.credential ∈ sampleV4.L.map Prod.fst →
        (∀ bw ∈ sampleV4.accepted_ballots, bw.1.credential ≠ sampleVote.credential) →
        ((processV3 sampleBv sampleV4 sampleVote).2 = .error .BallotVerificationError ↔
          sampleBv sampleVote sampleV4.election.public_key sampleV4.election.questions = false))
    ∧ (∀ w, (sampleVote.credential, w) ∈ sampleV4.L →
        (∀ bw ∈ sampleV4.accepted_ballots, bw.1.credential ≠ sampleVote.credential) →
        sampleBv sampleVote sampleV4.election.public_key sampleV4.election.questions = true →
        ((processV3 sampleBv sampleV4 sampleVote).2 = .ok ()
          ∧ (processV3 sampleBv sampleV4 sampleVote).1.accepted_ballots =
              sampleV4.accepted_ballots ++ [(sampleVote, w)])) :=
  ballot_acceptance_checks sampleBv sampleV4 sampleVote (by decide)

/-- Witness for C8 at the same concrete inputs. -/
theorem ballot_processing_frame_witness :
    ((processV3 sampleBv sampleV4 sampleVote).1.election = sampleV4.election)
    ∧ ((processV3 sampleBv sampleV4 sampleVote).1.L = sampleV4.L)
    ∧ (∀ e, (processV3 sampleBv sampleV4 sampleVote).2 = .error e →
        (processV3 sampleBv sampleV4 sampleVote).1.accepted_ballots =
          sampleV4.accepted_ballots)
    ∧ ((processV3 sampleBv sampleV4 sampleVote).2 = .ok () →
        ∃ w, (sampleVote.credential, w) ∈ sampleV4.L
          ∧ (processV3 sampleBv sampleV4 sampleVote).1.accepted_ballots =
              sampleV4.accepted_ballots ++ [(sampleVote, w)]) :=
  ballot_processing_frame sampleBv sampleV4 sampleVote
